import Mathlib

/-!
Shallow embedding of `src/git.ts` of the paths-filter repository.

The repository accessor (the `exec` wrapper around the `git` binary) is an
external collaborator; it is modelled as a state type `σ` together with an
observation function `exec : σ → List String → ExecOut` (read-only git
commands do not mutate the repository object store) and a transition
function `fetch : σ → List String → σ` (the only mutations `git.ts`
performs are `git fetch` invocations).  Every embedded operation returns,
besides its value, the list of git command lines it issued, in order.
-/

set_option maxHeartbeats 1600000

namespace PathsFilter

/-- ChangeStatus enumeration.  The `file.ts` module is not part of `src/`;
modelled from the spec: "ChangeStatus — enumerated: Added, Copied, Deleted,
Modified, Renamed, Unmerged" and from the six constructors used by
`statusMap` in `git.ts` lines 235-242. -/
inductive ChangeStatus where
  | Added
  | Copied
  | Deleted
  | Modified
  | Renamed
  | Unmerged
deriving Repr, DecidableEq

/-- File record, spec §3 / `file.ts` as used by `git.ts`.  In TypeScript the
`status` field is typed `ChangeStatus`, but the value stored by
`parseGitDiffOutput` is `statusMap[tokens[i]]`, which is `undefined` when the
token is not a key of the map; the runtime-faithful type is therefore
`Option ChangeStatus`. -/
structure File where
  status : Option ChangeStatus
  filename : String
deriving Repr, DecidableEq

/-- statusMap, `git.ts` lines 235-242: a JS object lookup keyed by the
one-character status codes; a missing key yields `undefined` (`none`). -/
def statusMap (s : String) : Option ChangeStatus :=
  if s = "A" then some ChangeStatus.Added
  else if s = "C" then some ChangeStatus.Copied
  else if s = "D" then some ChangeStatus.Deleted
  else if s = "M" then some ChangeStatus.Modified
  else if s = "R" then some ChangeStatus.Renamed
  else if s = "U" then some ChangeStatus.Unmerged
  else none

/-- JS `String.prototype.split` with a single-character separator, on the
character list of the string: splits at every occurrence, keeping empty
pieces. -/
def splitOnChar (c : Char) : List Char → List (List Char)
  | [] => [[]]
  | a :: rest =>
    match splitOnChar c rest with
    | [] => [[]]
    | h :: t => if a = c then [] :: h :: t else (a :: h) :: t

/-- `output.split('\u0000').filter(s => s.length > 0)` from
`parseGitDiffOutput` (`git.ts` line 125) and `listAllFilesAsAdded`
(lines 146-148).  Filtering empty character lists before converting to
`String` is equivalent to filtering empty strings after. -/
def tokensOf (output : String) : List String :=
  ((splitOnChar '\x00' output.data).filter (fun l => !l.isEmpty)).map List.asString

/-- The pairing loop of `parseGitDiffOutput` (`git.ts` lines 127-132):
`for (let i = 0; i + 1 < tokens.length; i += 2)` pushes
`{status: statusMap[tokens[i]], filename: tokens[i+1]}`; a final unpaired
token is never read. -/
def pairUp : List String → List File
  | a :: b :: rest => ⟨statusMap a, b⟩ :: pairUp rest
  | _ => []

/-- `parseGitDiffOutput`, `git.ts` lines 124-134. -/
def parseGitDiffOutput (output : String) : List File :=
  pairUp (tokensOf output)

/-- Elements at odd indices (0-based) of a list: these are exactly the path
tokens consumed by `pairUp`. -/
def oddIndexed {α : Type _} : List α → List α
  | _ :: b :: rest => b :: oddIndexed rest
  | _ => []

/-- One character of the class `[a-z0-9]`. -/
def isShaChar (c : Char) : Bool :=
  (decide ('a' ≤ c) && decide (c ≤ 'z')) || (decide ('0' ≤ c) && decide (c ≤ '9'))

/-- `isGitSha`, `git.ts` lines 186-188: `/^[a-z0-9]{40}$/.test(ref)`.
All characters the class matches are ASCII, so JS UTF-16 code-unit counting
and Lean codepoint counting agree on every string the regex accepts or
rejects. -/
def isGitSha (ref : String) : Bool :=
  decide (ref.length = 40) && ref.data.all isShaChar

/-- Drop a single trailing carriage return from a line, as the regex
delimiter `\r?\n` does for every piece that precedes a `\n`. -/
def stripCR (l : List Char) : List Char :=
  if l.getLast? = some '\r' then l.dropLast else l

/-- Apply `f` to every element except the last. -/
def mapInit {α : Type _} (f : α → α) : List α → List α
  | [] => []
  | [a] => [a]
  | a :: b :: rest => f a :: mapInit f (b :: rest)

/-- `output.split(/\r?\n/g)` (`git.ts` line 212): split at every `\n`,
consuming one `\r` immediately before it; the piece after the last `\n`
keeps any trailing `\r` (the regex only consumes `\r` adjacent to `\n`). -/
def splitLinesJS (cs : List Char) : List (List Char) :=
  mapInit stripCR (splitOnChar '\n' cs)

/-- Whether a carriage return occurs in the character list. -/
def hasCR (l : List Char) : Bool := l.contains '\r'

/-- Leftmost match of the JS regex `/refs\/.*$/` on a line (`git.ts` line
213): the match starts at an occurrence of `refs/` and `.*$` must cover the
rest of the line, where JS `.` matches no line terminator and `$`
(non-multiline) anchors at the end of the input, so a match at a position
exists exactly when no `\r` follows in the line. -/
def refsMatchAux : List Char → Option (List Char)
  | [] => none
  | c :: rest =>
    if "refs/".data.isPrefixOf (c :: rest) && !hasCR (List.drop 5 (c :: rest)) then
      some (c :: rest)
    else
      refsMatchAux rest

/-- `l.match(/refs\/.*$/)?.[0] ?? ''` on one line (`git.ts` line 213). -/
def refsMatchLine (l : List Char) : List Char :=
  (refsMatchAux l).getD []

/-- The candidate reference list of `getFullRef`, `git.ts` lines 211-214:
split the `show-ref` output into lines, extract the `refs/...` suffix of
each, drop empty results. -/
def getFullRefRefs (out : String) : List String :=
  (((splitLinesJS out.data).map refsMatchLine).filter (fun l => !l.isEmpty)).map List.asString

/-- `ref.startsWith('refs/remotes/origin/')`, `git.ts` line 220. -/
def originPred (r : String) : Bool :=
  "refs/remotes/origin/".data.isPrefixOf r.data

/-- Result of one accessor invocation: the raw stdout text and the exit
code, as delivered by the `exec` collaborator. -/
structure ExecOut where
  stdout : String
  code : Int
deriving Repr, DecidableEq

/-- The repository accessor: `exec` observes the repository state with a
read-only git command (its result may depend on the full argument list);
`fetch` is the state transition performed by a `git fetch` invocation. -/
structure GitAcc (σ : Type) where
  exec : σ → List String → ExecOut
  fetch : σ → List String → σ

/-- A git command line (the argument list passed to the `git` binary). -/
abbrev Cmd := List String

def cmdShowRef (name : String) : Cmd := ["show-ref", name]

def cmdMergeBase (baseRef ref : String) : Cmd := ["merge-base", baseRef, ref]

def cmdRevListCount : Cmd := ["rev-list", "--count", "--all"]

def cmdFetchFull : Cmd := ["fetch"]

def cmdDeepen (depth : Nat) (base ref : String) : Cmd :=
  ["fetch", "--deepen=" ++ toString depth, "origin", base, ref]

def cmdFetchDepthNoTags (depth : Nat) (base ref : String) : Cmd :=
  ["fetch", "--no-tags", "--depth=" ++ toString depth, "origin", base, ref]

def cmdFetchTags (base ref : String) : Cmd :=
  ["fetch", "--tags", "--depth=1", "origin", base, ref]

def cmdDiff (arg : String) : Cmd :=
  ["diff", "--no-renames", "--name-status", "-z", arg]

def cmdFetchSingle (ref : String) : Cmd :=
  ["fetch", "--depth=1", "--no-tags", "origin", ref]

def cmdCatFile (ref : String) : Cmd :=
  ["cat-file", "-e", ref ++ "^\x7bcommit\x7d"]

def cmdLogLast : Cmd :=
  ["log", "--format=", "--no-renames", "--name-status", "-z", "-n", "1"]

def cmdLsFiles : Cmd := ["ls-files", "-z"]

/-- `getFullRef`, `git.ts` lines 205-226, together with the command trace it
issues.  A 40-character `[a-z0-9]` string is returned unchanged with no
accessor call; otherwise the candidates from `git show-ref` are consulted,
preferring the first candidate under `refs/remotes/origin/` and falling back
to the first candidate, or `undefined` when there is none. -/
def getFullRef {σ : Type} (acc : GitAcc σ) (w : σ) (shortName : String) :
    Option String × List Cmd :=
  if isGitSha shortName then (some shortName, [])
  else
    let refs := getFullRefRefs ((acc.exec w (cmdShowRef shortName)).stdout)
    match refs with
    | [] => (none, [cmdShowRef shortName])
    | r0 :: _ =>
      match refs.find? originPred with
      | some r => (some r, [cmdShowRef shortName])
      | none => (some r0, [cmdShowRef shortName])

/-- Hexadecimal digit, as accepted by JS `parseInt` with radix 16. -/
def hexDigitP (c : Char) : Bool :=
  c.isDigit || (decide ('a' ≤ c) && decide (c ≤ 'f')) || (decide ('A' ≤ c) && decide (c ≤ 'F'))

/-- Numeric value of a (hex) digit character. -/
def hexDigitVal (c : Char) : Nat :=
  if c.isDigit then c.toNat - '0'.toNat
  else if decide ('a' ≤ c) && decide (c ≤ 'f') then c.toNat - 'a'.toNat + 10
  else c.toNat - 'A'.toNat + 10

/-- Value of a digit string in base `b`. -/
def digitsVal (b : Nat) (ds : List Char) : Nat :=
  ds.foldl (fun a c => a * b + hexDigitVal c) 0

/-- JS `parseInt` after sign handling: a `0x`/`0X` prefix selects base 16,
otherwise the longest decimal-digit prefix is parsed; no digit means `NaN`
(`none`). -/
def jsParseIntSigned (sgn : Int) (u : List Char) : Option Int :=
  match u with
  | '0' :: x :: rest =>
    if x = 'x' || x = 'X' then
      match rest.takeWhile hexDigitP with
      | [] => none
      | ds => some (sgn * Int.ofNat (digitsVal 16 ds))
    else
      some (sgn * Int.ofNat (digitsVal 10 (('0' :: x :: rest).takeWhile Char.isDigit)))
  | _ =>
    match u.takeWhile Char.isDigit with
    | [] => none
    | ds => some (sgn * Int.ofNat (digitsVal 10 ds))

/-- JS `parseInt(s)`: skip leading whitespace, read an optional sign, then
parse digits (values small enough for a git commit count are exact in a JS
number, so arbitrary-precision `Int` is faithful here). -/
def jsParseInt (cs : List Char) : Option Int :=
  match cs.dropWhile Char.isWhitespace with
  | '-' :: rest => jsParseIntSigned (-1) rest
  | '+' :: rest => jsParseIntSigned 1 rest
  | t => jsParseIntSigned 1 t

/-- `const count = parseInt(output); return isNaN(count) ? 0 : count`
(`git.ts` lines 199-203). -/
def jsParseIntOr0 (s : String) : Int :=
  (jsParseInt s.data).getD 0

/-- `getCommitCount`, `git.ts` lines 199-203, as an observation of the
repository state. -/
def commitCountAt {σ : Type} (acc : GitAcc σ) (w : σ) : Int :=
  jsParseIntOr0 ((acc.exec w cmdRevListCount).stdout)

/-- `Number.MAX_SAFE_INTEGER`. -/
def maxSafeInteger : Nat := 2 ^ 53 - 1

/-- `depth = Math.min(depth * 2, Number.MAX_SAFE_INTEGER)` (`git.ts` line
85); doubling is exact in binary floating point, so the `Nat` model is
faithful. -/
def satDouble (d : Nat) : Nat := min (d * 2) maxSafeInteger

/-- The depth after `n` doubling steps from `d`. -/
def satIter (d n : Nat) : Nat := satDouble^[n] d

/-- Distinguished fatal errors of the change-set discoverer.  The throw at
`git.ts` line 77 (`Could not determine what is ${base} - fetch works but
it's not a branch or tag`) is the spec's `RefNotFoundError`; it names the
unresolved reference. -/
inductive GitError where
  | refNotFound (ref : String)
deriving Repr, DecidableEq

/-- Result of the merge-base search loop: final repository state, the
`noMergeBase` flag, and the commands issued. -/
structure LoopOut (σ : Type) where
  st : σ
  noMergeBase : Bool
  trace : List Cmd

/-- The `while (!(await hasMergeBase()))` loop of `getChangesSinceMergeBase`,
`git.ts` lines 84-98, with an explicit fuel parameter (`none` = the loop did
not finish within `fuel` iterations).  Each iteration: re-check for a merge
base; double the depth (saturating); deepen-fetch; recount commits; if the
count is unchanged, perform one full `git fetch`, re-check, set the
`noMergeBase` flag on failure and break; otherwise continue with the new
count. -/
def mergeBaseLoop {σ : Type} (acc : GitAcc σ) (base ref baseRef : String) :
    Nat → σ → Nat → Int → Option (LoopOut σ)
  | 0, _, _, _ => none
  | fuel + 1, s, depth, lastCount =>
    if (acc.exec s (cmdMergeBase baseRef ref)).code = 0 then
      some ⟨s, false, [cmdMergeBase baseRef ref]⟩
    else
      let d2 := satDouble depth
      let s2 := acc.fetch s (cmdDeepen d2 base ref)
      let c := commitCountAt acc s2
      if c = lastCount then
        let s3 := acc.fetch s2 cmdFetchFull
        some ⟨s3,
          if (acc.exec s3 (cmdMergeBase baseRef ref)).code = 0 then false else true,
          [cmdMergeBase baseRef ref, cmdDeepen d2 base ref, cmdRevListCount,
            cmdFetchFull, cmdMergeBase baseRef ref]⟩
      else
        (mergeBaseLoop acc base ref baseRef fuel s2 d2 c).map
          (fun lo => ⟨lo.st, lo.noMergeBase,
            cmdMergeBase baseRef ref :: cmdDeepen d2 base ref :: cmdRevListCount :: lo.trace⟩)

/-- Outcome of one discovery call of `getChangesSinceMergeBase`: the file
list or the thrown error, whether the no-merge-base warning was emitted, the
command trace, and the final repository state. -/
structure RunResult (σ : Type) where
  result : Except GitError (List File)
  warning : Bool
  trace : List Cmd
  final : σ

/-- `git.ts` lines 104-108: `diffArg` is the three-dot form unless
`noMergeBase` forced the two-dot fallback. -/
def diffArgOf (baseRef ref : String) (noMergeBase : Bool) : String :=
  if noMergeBase then baseRef ++ ".." ++ ref else baseRef ++ "..." ++ ref

/-- Prepend already-issued commands to the trace of a pending result. -/
def prependTrace {σ : Type} (t : List Cmd) : Option (RunResult σ) → Option (RunResult σ)
  | none => none
  | some rr => some ⟨rr.result, rr.warning, t ++ rr.trace, rr.final⟩

/-- Lines 82-98 and 104-121 of `git.ts` once `baseRef` is resolved: record
the commit count, run the merge-base search loop, then run the diff (two-dot
exactly when the loop set `noMergeBase`, with the warning) and parse it. -/
def loopAndDiff {σ : Type} (acc : GitAcc σ) (w : σ) (base ref baseRef : String)
    (initialFetchDepth fuel : Nat) : Option (RunResult σ) :=
  match mergeBaseLoop acc base ref baseRef fuel w initialFetchDepth (commitCountAt acc w) with
  | none => none
  | some lo =>
    some ⟨Except.ok (parseGitDiffOutput
        ((acc.exec lo.st (cmdDiff (diffArgOf baseRef ref lo.noMergeBase))).stdout)),
      lo.noMergeBase,
      cmdRevListCount :: lo.trace ++ [cmdDiff (diffArgOf baseRef ref lo.noMergeBase)],
      lo.st⟩

/-- `getChangesSinceMergeBase`, `git.ts` lines 57-122.  Resolve `base`; if a
merge base already exists, diff immediately (three-dot).  Otherwise fetch at
the initial depth; if `base` was unresolved, re-resolve, retrying once with
a tags fetch, and throw `refNotFound` if still unresolved; then run the
deepen loop and the final diff. -/
def getChangesSinceMergeBase {σ : Type} (acc : GitAcc σ) (w0 : σ) (base ref : String)
    (initialFetchDepth fuel : Nat) : Option (RunResult σ) :=
  let r0 := getFullRef acc w0 base
  match r0.1 with
  | some b =>
    if (acc.exec w0 (cmdMergeBase b ref)).code = 0 then
      some ⟨Except.ok (parseGitDiffOutput
          ((acc.exec w0 (cmdDiff (diffArgOf b ref false))).stdout)),
        false, r0.2 ++ [cmdMergeBase b ref, cmdDiff (diffArgOf b ref false)], w0⟩
    else
      prependTrace (r0.2 ++ [cmdMergeBase b ref, cmdFetchDepthNoTags initialFetchDepth base ref])
        (loopAndDiff acc (acc.fetch w0 (cmdFetchDepthNoTags initialFetchDepth base ref))
          base ref b initialFetchDepth fuel)
  | none =>
    let w1 := acc.fetch w0 (cmdFetchDepthNoTags initialFetchDepth base ref)
    let r1 := getFullRef acc w1 base
    match r1.1 with
    | some b =>
      prependTrace (r0.2 ++ cmdFetchDepthNoTags initialFetchDepth base ref :: r1.2)
        (loopAndDiff acc w1 base ref b initialFetchDepth fuel)
    | none =>
      let w2 := acc.fetch w1 (cmdFetchTags base ref)
      let r2 := getFullRef acc w2 base
      match r2.1 with
      | some b =>
        prependTrace (r0.2 ++ cmdFetchDepthNoTags initialFetchDepth base ref ::
            (r1.2 ++ cmdFetchTags base ref :: r2.2))
          (loopAndDiff acc w2 base ref b initialFetchDepth fuel)
      | none =>
        some ⟨Except.error (GitError.refNotFound base), false,
          r0.2 ++ cmdFetchDepthNoTags initialFetchDepth base ref ::
            (r1.2 ++ cmdFetchTags base ref :: r2.2), w2⟩

/-- `getChangesInLastCommit`, `git.ts` lines 8-19. -/
def getChangesInLastCommit {σ : Type} (acc : GitAcc σ) (w : σ) : List File × List Cmd :=
  (parseGitDiffOutput ((acc.exec w cmdLogLast).stdout), [cmdLogLast])

/-- `getChanges`, `git.ts` lines 21-41 (the DirectCompare mode): if
`baseRef` is not locally available as a commit, fetch a single commit for
it; then diff `baseRef..HEAD` (two-dot) and parse. -/
def getChanges {σ : Type} (acc : GitAcc σ) (w : σ) (baseRef : String) :
    List File × List Cmd :=
  if (acc.exec w (cmdCatFile baseRef)).code = 0 then
    (parseGitDiffOutput ((acc.exec w (cmdDiff (baseRef ++ "..HEAD"))).stdout),
      [cmdCatFile baseRef, cmdDiff (baseRef ++ "..HEAD")])
  else
    (parseGitDiffOutput
        ((acc.exec (acc.fetch w (cmdFetchSingle baseRef)) (cmdDiff (baseRef ++ "..HEAD"))).stdout),
      [cmdCatFile baseRef, cmdFetchSingle baseRef, cmdDiff (baseRef ++ "..HEAD")])

/-- `getChangesOnHead`, `git.ts` lines 43-55. -/
def getChangesOnHead {σ : Type} (acc : GitAcc σ) (w : σ) : List File × List Cmd :=
  (parseGitDiffOutput ((acc.exec w (cmdDiff "HEAD")).stdout), [cmdDiff "HEAD"])

/-- `listAllFilesAsAdded`, `git.ts` lines 136-153. -/
def listAllFilesAsAdded {σ : Type} (acc : GitAcc σ) (w : σ) : List File × List Cmd :=
  ((tokensOf ((acc.exec w cmdLsFiles).stdout)).map
      (fun p => ⟨some ChangeStatus.Added, p⟩),
    [cmdLsFiles])

/-- Whether a command line is a `git fetch` (the only mutating commands). -/
def isFetchCmd : Cmd → Bool
  | "fetch" :: _ => true
  | _ => false

/-- Whether a command line is a bounded-depth deepen fetch. -/
def isDeepen : Cmd → Bool
  | "fetch" :: a :: _ => "--deepen=".data.isPrefixOf a.data
  | _ => false

/-- Replay a command trace from a state: fetches mutate, reads do not. -/
def replay {σ : Type} (acc : GitAcc σ) : σ → List Cmd → σ
  | s, [] => s
  | s, c :: r => replay acc (if isFetchCmd c then acc.fetch s c else s) r

/-- The command block of `k` non-breaking iterations of the merge-base
search loop started at depth `d`: each iteration re-checks the merge base,
deepen-fetches at the doubled depth and recounts the commits. -/
def loopBlocks (base ref baseRef : String) : Nat → Nat → List Cmd
  | _, 0 => []
  | d, k + 1 =>
    cmdMergeBase baseRef ref :: cmdDeepen (satDouble d) base ref :: cmdRevListCount ::
      loopBlocks base ref baseRef (satDouble d) k

/-- One non-breaking iteration of the loop on its variables
(state, depth, lastCommitCount). -/
def loopStep {σ : Type} (acc : GitAcc σ) (base ref : String) :
    σ × Nat × Int → σ × Nat × Int :=
  fun t =>
    let d2 := satDouble t.2.1
    let s2 := acc.fetch t.1 (cmdDeepen d2 base ref)
    (s2, d2, commitCountAt acc s2)

/-- The loop leaves its `while` body at `t`: either a merge base is visible,
or the deepen fetch of this iteration would leave the commit count
unchanged. -/
def loopDone {σ : Type} (acc : GitAcc σ) (base ref baseRef : String)
    (t : σ × Nat × Int) : Prop :=
  (acc.exec t.1 (cmdMergeBase baseRef ref)).code = 0 ∨
    commitCountAt acc (acc.fetch t.1 (cmdDeepen (satDouble t.2.1) base ref)) = t.2.2

/-- A command trace that contains no deepen fetch, no full fetch and no
diff (used for the part of a run that precedes the merge-base loop). -/
def preClean (P : List Cmd) : Prop :=
  P.filter isDeepen = [] ∧ cmdFetchFull ∉ P ∧ ∀ arg, cmdDiff arg ∉ P

/-- A trivial accessor over a unit state: every command succeeds with empty
output (used to instantiate theorems at concrete inputs). -/
def trivAcc : GitAcc Unit :=
  ⟨fun _ _ => ⟨"", 0⟩, fun _ _ => ()⟩

/-- A 40-character lowercase-hex-free SHA-shaped string. -/
def sha40 : String := "aaaaaaaaaaaaaaaaaaaaaaaaaaaaaaaaaaaaaaaa"

/-- Accessor whose `show-ref` output offers a head candidate and a tracked
remote candidate (used for concrete instantiations). -/
def accRefs : GitAcc Unit :=
  ⟨fun _ _ => ⟨"111 refs/heads/main\n222 refs/remotes/origin/main\n", 0⟩, fun _ _ => ()⟩

/-- Accessor whose every output is a fixed two-file diff record stream
(used for concrete instantiations). -/
def accDiff : GitAcc Unit :=
  ⟨fun _ _ => ⟨"A\x00a.txt\x00M\x00b.txt\x00", 0⟩, fun _ _ => ()⟩

/-- The run result of `getChangesSinceMergeBase trivAcc () sha40 "r" 2 1`:
the base is a SHA, the merge base is visible at once, so the run is the
single three-dot diff (used for concrete instantiations). -/
def rrA : RunResult Unit :=
  ⟨Except.ok [], false, [cmdMergeBase sha40 "r", cmdDiff (sha40 ++ "..." ++ "r")], ()⟩

/-! ### Basic facts about command lines -/

theorem isDeepen_deepen (d : Nat) (b r : String) : isDeepen (cmdDeepen d b r) = true := by
  show "--deepen=".data.isPrefixOf (("--deepen=" ++ toString d).data) = true
  rw [String.data_append]
  exact List.isPrefixOf_iff_prefix.2 (List.prefix_append _ _)

theorem isDeepen_mergeBase (b r : String) : isDeepen (cmdMergeBase b r) = false := rfl

theorem isDeepen_revList : isDeepen cmdRevListCount = false := rfl

theorem isDeepen_full : isDeepen cmdFetchFull = false := rfl

theorem isDeepen_showRef (n : String) : isDeepen (cmdShowRef n) = false := rfl

theorem isDeepen_diff (a : String) : isDeepen (cmdDiff a) = false := rfl

theorem isDeepen_fetchDepthNoTags (d : Nat) (b r : String) :
    isDeepen (cmdFetchDepthNoTags d b r) = false := rfl

theorem isDeepen_fetchTags (b r : String) : isDeepen (cmdFetchTags b r) = false := rfl

theorem isFetchCmd_showRef (n : String) : isFetchCmd (cmdShowRef n) = false := rfl

theorem isFetchCmd_mergeBase (b r : String) : isFetchCmd (cmdMergeBase b r) = false := rfl

theorem isFetchCmd_revList : isFetchCmd cmdRevListCount = false := rfl

theorem isFetchCmd_diff (a : String) : isFetchCmd (cmdDiff a) = false := rfl

theorem isFetchCmd_deepen (d : Nat) (b r : String) : isFetchCmd (cmdDeepen d b r) = true := rfl

theorem isFetchCmd_full : isFetchCmd cmdFetchFull = true := rfl

theorem isFetchCmd_fetchDepthNoTags (d : Nat) (b r : String) :
    isFetchCmd (cmdFetchDepthNoTags d b r) = true := rfl

theorem isFetchCmd_fetchTags (b r : String) : isFetchCmd (cmdFetchTags b r) = true := rfl

theorem full_ne_mergeBase (b r : String) : cmdFetchFull ≠ cmdMergeBase b r := by
  simp [cmdFetchFull, cmdMergeBase]

theorem full_ne_deepen (d : Nat) (b r : String) : cmdFetchFull ≠ cmdDeepen d b r := by
  simp [cmdFetchFull, cmdDeepen]

theorem full_ne_revList : cmdFetchFull ≠ cmdRevListCount := by
  simp [cmdFetchFull, cmdRevListCount]

theorem full_ne_diff (a : String) : cmdFetchFull ≠ cmdDiff a := by
  simp [cmdFetchFull, cmdDiff]

theorem full_ne_showRef (n : String) : cmdFetchFull ≠ cmdShowRef n := by
  simp [cmdFetchFull, cmdShowRef]

theorem full_ne_fetchDepthNoTags (d : Nat) (b r : String) :
    cmdFetchFull ≠ cmdFetchDepthNoTags d b r := by
  simp [cmdFetchFull, cmdFetchDepthNoTags]

theorem full_ne_fetchTags (b r : String) : cmdFetchFull ≠ cmdFetchTags b r := by
  simp [cmdFetchFull, cmdFetchTags]

theorem diff_ne_mergeBase (a b r : String) : cmdDiff a ≠ cmdMergeBase b r := by
  simp [cmdDiff, cmdMergeBase]

theorem diff_ne_deepen (a : String) (d : Nat) (b r : String) : cmdDiff a ≠ cmdDeepen d b r := by
  simp [cmdDiff, cmdDeepen]

theorem diff_ne_revList (a : String) : cmdDiff a ≠ cmdRevListCount := by
  simp [cmdDiff, cmdRevListCount]

theorem diff_ne_full (a : String) : cmdDiff a ≠ cmdFetchFull := by
  simp [cmdDiff, cmdFetchFull]

theorem diff_ne_showRef (a n : String) : cmdDiff a ≠ cmdShowRef n := by
  simp [cmdDiff, cmdShowRef]

theorem diff_ne_fetchDepthNoTags (a : String) (d : Nat) (b r : String) :
    cmdDiff a ≠ cmdFetchDepthNoTags d b r := by
  simp [cmdDiff, cmdFetchDepthNoTags]

theorem diff_ne_fetchTags (a b r : String) : cmdDiff a ≠ cmdFetchTags b r := by
  simp [cmdDiff, cmdFetchTags]

theorem diff_inj (a b : String) : cmdDiff a = cmdDiff b ↔ a = b := by
  simp [cmdDiff]

theorem fetchSingle_ne_catFile (r r' : String) : cmdFetchSingle r ≠ cmdCatFile r' := by
  simp [cmdFetchSingle, cmdCatFile]

theorem fetchSingle_ne_diff (r a : String) : cmdFetchSingle r ≠ cmdDiff a := by
  simp [cmdFetchSingle, cmdDiff]

theorem diff_ne_catFile (a r : String) : cmdDiff a ≠ cmdCatFile r := by
  simp [cmdDiff, cmdCatFile]

theorem diff_ne_fetchSingle (a r : String) : cmdDiff a ≠ cmdFetchSingle r := by
  simp [cmdDiff, cmdFetchSingle]

/-! ### Lemmas about the diff-output parser -/

theorem length_pairUp : ∀ l : List String, (pairUp l).length = l.length / 2
  | [] => by simp [pairUp]
  | [a] => by simp [pairUp]
  | a :: b :: r => by
    simp only [pairUp, List.length_cons, length_pairUp r]
    omega

theorem filenames_pairUp : ∀ l : List String,
    (pairUp l).map File.filename = oddIndexed l
  | [] => rfl
  | [a] => rfl
  | a :: b :: r => by
    simp only [pairUp, oddIndexed, List.map_cons, List.cons.injEq, true_and]
    exact filenames_pairUp r

theorem pairUp_dropLast_of_odd : ∀ l : List String, l.length % 2 = 1 →
    pairUp l = pairUp l.dropLast
  | [], h => by simp at h
  | [a], _ => by simp [pairUp]
  | [a, b], h => by simp at h
  | a :: b :: x :: t, h => by
    have hr : (x :: t).length % 2 = 1 := by
      simp only [List.length_cons] at h ⊢
      omega
    calc pairUp (a :: b :: x :: t)
        = ⟨statusMap a, b⟩ :: pairUp (x :: t) := rfl
      _ = ⟨statusMap a, b⟩ :: pairUp (x :: t).dropLast :=
          by rw [pairUp_dropLast_of_odd (x :: t) hr]
      _ = pairUp (a :: b :: x :: t).dropLast := by
          cases t <;> rfl

theorem statusMap_none_of_length_ne_one (s : String) (h : s.length ≠ 1) :
    statusMap s = none := by
  have hA : s ≠ "A" := by rintro rfl; exact h (by decide)
  have hC : s ≠ "C" := by rintro rfl; exact h (by decide)
  have hD : s ≠ "D" := by rintro rfl; exact h (by decide)
  have hM : s ≠ "M" := by rintro rfl; exact h (by decide)
  have hR : s ≠ "R" := by rintro rfl; exact h (by decide)
  have hU : s ≠ "U" := by rintro rfl; exact h (by decide)
  simp [statusMap, hA, hC, hD, hM, hR, hU]

theorem length_pos_of_ne_empty {s : String} (h : s ≠ "") : 0 < s.length := by
  rcases s with ⟨l⟩
  cases l with
  | nil => exact absurd rfl h
  | cons c t => simp [String.length]

/-! ### Claim theorems: the parser -/

/-- C4: parseGitDiffOutput maps the null-delimited token stream
`"A\0foo.txt\0D\0bar.txt\0"` (with its trailing delimiter producing a
trailing empty token that is dropped) to exactly the two records
`[{foo.txt, Added}, {bar.txt, Deleted}]`. -/
theorem c4_parse_roundtrip :
    parseGitDiffOutput "A\x00foo.txt\x00D\x00bar.txt\x00" =
      [⟨some ChangeStatus.Added, "foo.txt"⟩, ⟨some ChangeStatus.Deleted, "bar.txt"⟩] := by
  decide

/-- C9: parseGitDiffOutput (total on every string by construction) returns
`⌊n/2⌋` records, where `n` is the number of non-empty null-separated tokens,
and when `n` is odd the final unpaired token is silently dropped: the result
equals the parse of the token list without its last element. -/
theorem c9_parse_pairing (out : String) :
    (parseGitDiffOutput out).length = (tokensOf out).length / 2 ∧
    ((tokensOf out).length % 2 = 1 →
      parseGitDiffOutput out = pairUp ((tokensOf out).dropLast)) := by
  refine ⟨length_pairUp (tokensOf out), fun h => ?_⟩
  exact pairUp_dropLast_of_odd (tokensOf out) h

/-- Witness for C9 at the concrete odd-length stream `"A\0f\0X"`. -/
theorem c9_parse_pairing_witness :
    (tokensOf "A\x00f\x00X").length % 2 = 1 ∧
      parseGitDiffOutput "A\x00f\x00X" = pairUp ((tokensOf "A\x00f\x00X").dropLast) :=
  ⟨by decide, (c9_parse_pairing "A\x00f\x00X").2 (by decide)⟩

/-- C3 counterexample: the status token `R100` (rename with similarity
score) is looked up in statusMap as-is, which yields no status at all
(`undefined`), not `Renamed`: the claim that the similarity score is
stripped before the lookup is false on the code. -/
theorem c3_counterexample :
    (parseGitDiffOutput "R100\x00foo.txt\x00").map File.status = [none] ∧
      parseGitDiffOutput "R100\x00foo.txt\x00" ≠
        [⟨some ChangeStatus.Renamed, "foo.txt"⟩] := by
  constructor
  · decide
  · decide

/-- C3 (amended): parseGitDiffOutput performs no similarity-score
stripping: the status token is looked up in statusMap as-is, so a rename or
copy token decorated with a similarity score (`"R" ++ rest`, `"C" ++ rest`
with `rest` non-empty) maps to no status (`none`), while only the bare
one-character tokens `R` and `C` map to `Renamed` and `Copied`. -/
theorem c3_no_similarity_strip (rest : String) (hr : rest ≠ "") :
    statusMap ("R" ++ rest) = none ∧ statusMap ("C" ++ rest) = none ∧
    statusMap "R" = some ChangeStatus.Renamed ∧
    statusMap "C" = some ChangeStatus.Copied ∧
    ∀ (path : String) (t : List String),
      pairUp (("R" ++ rest) :: path :: t) = ⟨none, path⟩ :: pairUp t := by
  have hlen : ∀ c : String, c.length = 1 → (c ++ rest).length ≠ 1 := by
    intro c hc
    have := length_pos_of_ne_empty hr
    rw [String.length_append, hc]
    omega
  have hRn : statusMap ("R" ++ rest) = none :=
    statusMap_none_of_length_ne_one _ (hlen "R" (by decide))
  have hCn : statusMap ("C" ++ rest) = none :=
    statusMap_none_of_length_ne_one _ (hlen "C" (by decide))
  refine ⟨hRn, hCn, by decide, by decide, fun path t => ?_⟩
  show ⟨statusMap ("R" ++ rest), path⟩ :: pairUp t = ⟨none, path⟩ :: pairUp t
  rw [hRn]

/-- Witness for C3's amended theorem at the concrete similarity-decorated
tokens `R100` and `C75`. -/
theorem c3_no_similarity_strip_witness :
    statusMap ("R" ++ "100") = none ∧ statusMap ("C" ++ "75") = none :=
  ⟨(c3_no_similarity_strip "100" (by decide)).1,
    (c3_no_similarity_strip "75" (by decide)).2.1⟩

/-! ### Claim theorems: isGitSha and getFullRef -/

/-- C10: isGitSha accepts exactly the 40-character strings over `[a-z0-9]`
(including non-hexadecimal ones such as forty `z`s), and getFullRef returns
any such string unchanged without issuing any accessor call. -/
theorem c10_isGitSha_shortcut (s : String) :
    (isGitSha s = true ↔
      s.length = 40 ∧ ∀ c ∈ s.data, ('a' ≤ c ∧ c ≤ 'z') ∨ ('0' ≤ c ∧ c ≤ '9')) ∧
    isGitSha "zzzzzzzzzzzzzzzzzzzzzzzzzzzzzzzzzzzzzzzz" = true ∧
    (∀ (σ : Type) (acc : GitAcc σ) (w : σ), isGitSha s = true →
      getFullRef acc w s = (some s, [])) := by
  refine ⟨?_, by decide, fun σ acc w h => by simp [getFullRef, h]⟩
  simp [isGitSha, isShaChar, List.all_eq_true, Bool.and_eq_true, Bool.or_eq_true,
    decide_eq_true_eq]

/-- Witness for C10 at a concrete 40-character SHA-shaped string. -/
theorem c10_isGitSha_shortcut_witness :
    getFullRef trivAcc () sha40 = (some sha40, []) :=
  (c10_isGitSha_shortcut sha40).2.2 Unit trivAcc () (by decide)

/-- C6: getFullRef on a non-SHA short name consults the candidates from the
accessor's `show-ref` output; it returns `undefined` when there is no
candidate, a candidate under `refs/remotes/origin/` whenever one exists,
and otherwise the first candidate. -/
theorem c6_getFullRef_resolution {σ : Type} (acc : GitAcc σ) (w : σ) (s : String)
    (hsha : isGitSha s = false) :
    (getFullRefRefs ((acc.exec w (cmdShowRef s)).stdout) = [] →
      getFullRef acc w s = (none, [cmdShowRef s])) ∧
    ((∃ r ∈ getFullRefRefs ((acc.exec w (cmdShowRef s)).stdout), originPred r = true) →
      ∃ r, getFullRef acc w s = (some r, [cmdShowRef s]) ∧ originPred r = true ∧
        r ∈ getFullRefRefs ((acc.exec w (cmdShowRef s)).stdout)) ∧
    ((∀ r ∈ getFullRefRefs ((acc.exec w (cmdShowRef s)).stdout), originPred r = false) →
      getFullRef acc w s =
        ((getFullRefRefs ((acc.exec w (cmdShowRef s)).stdout)).head?, [cmdShowRef s])) := by
  refine ⟨fun h => by simp [getFullRef, hsha, h], ?_, ?_⟩
  · rintro ⟨r, hr, hpr⟩
    have hfind : ((getFullRefRefs ((acc.exec w (cmdShowRef s)).stdout)).find? originPred).isSome :=
      List.find?_isSome.2 ⟨r, hr, hpr⟩
    obtain ⟨r', hr'⟩ := Option.isSome_iff_exists.1 hfind
    refine ⟨r', ?_, List.find?_some hr', List.mem_of_find?_eq_some hr'⟩
    rcases hrefs : getFullRefRefs ((acc.exec w (cmdShowRef s)).stdout) with _ | ⟨r0, rs⟩
    · rw [hrefs] at hr
      simp at hr
    · rw [hrefs] at hr'
      simp [getFullRef, hsha, hrefs, hr']
  · intro hall
    have hnone : ((getFullRefRefs ((acc.exec w (cmdShowRef s)).stdout)).find? originPred) = none :=
      List.find?_eq_none.2 (fun x hx => by simp [hall x hx])
    rcases hrefs : getFullRefRefs ((acc.exec w (cmdShowRef s)).stdout) with _ | ⟨r0, rs⟩
    · simp [getFullRef, hsha, hrefs]
    · rw [hrefs] at hnone
      simp [getFullRef, hsha, hrefs, hnone]

/-- Witness for C6 at a concrete accessor whose `show-ref` output offers a
head candidate and a tracked remote candidate. -/
theorem c6_getFullRef_resolution_witness :
    ∃ r, getFullRef accRefs () "main" = (some r, [cmdShowRef "main"]) ∧
      originPred r = true ∧
      r ∈ getFullRefRefs ((accRefs.exec () (cmdShowRef "main")).stdout) :=
  (c6_getFullRef_resolution accRefs () "main" (by decide)).2.1
    ⟨"refs/remotes/origin/main", by decide, by decide⟩

/-- C7: getChanges checks whether `baseRef` is locally resolvable as a
commit, fetches a single commit of history for it exactly when it is not,
and returns the parse of the direct two-point diff `baseRef..HEAD` — the
only diff it ever issues is that two-dot comparison. -/
theorem c7_getChanges_direct {σ : Type} (acc : GitAcc σ) (w : σ) (baseRef : String) :
    (cmdFetchSingle baseRef ∈ (getChanges acc w baseRef).2 ↔
      ¬ (acc.exec w (cmdCatFile baseRef)).code = 0) ∧
    (∀ arg, cmdDiff arg ∈ (getChanges acc w baseRef).2 → arg = baseRef ++ "..HEAD") ∧
    (getChanges acc w baseRef).2.getLast? = some (cmdDiff (baseRef ++ "..HEAD")) ∧
    (getChanges acc w baseRef).1 =
      parseGitDiffOutput ((acc.exec
        (if (acc.exec w (cmdCatFile baseRef)).code = 0 then w
          else acc.fetch w (cmdFetchSingle baseRef))
        (cmdDiff (baseRef ++ "..HEAD"))).stdout) := by
  unfold getChanges
  by_cases h : (acc.exec w (cmdCatFile baseRef)).code = 0
  · simp only [if_pos h]
    refine ⟨?_, ?_, rfl, trivial⟩
    · simp [List.mem_cons, fetchSingle_ne_catFile, fetchSingle_ne_diff, h]
    · intro arg harg
      simp [List.mem_cons, diff_ne_catFile, diff_inj] at harg
      exact harg
  · simp only [if_neg h]
    refine ⟨?_, ?_, rfl, trivial⟩
    · simp [List.mem_cons, h]
    · intro arg harg
      simp [List.mem_cons, diff_ne_catFile, diff_ne_fetchSingle, diff_inj] at harg
      exact harg

/-! ### Inversion lemmas for getChangesSinceMergeBase -/

theorem prependTrace_some {σ : Type} (t : List Cmd) (o : Option (RunResult σ))
    (rr : RunResult σ) (h : prependTrace t o = some rr) :
    ∃ rr', o = some rr' ∧ rr.result = rr'.result ∧ rr.warning = rr'.warning ∧
      rr.trace = t ++ rr'.trace ∧ rr.final = rr'.final := by
  cases o with
  | none => simp [prependTrace] at h
  | some x =>
    refine ⟨x, rfl, ?_, ?_, ?_, ?_⟩ <;>
      · injection h with h'
        subst h'
        rfl

theorem loopAndDiff_some {σ : Type} (acc : GitAcc σ) (w : σ) (base ref b : String)
    (d0 fuel : Nat) (rr : RunResult σ) (h : loopAndDiff acc w base ref b d0 fuel = some rr) :
    ∃ lo, mergeBaseLoop acc base ref b fuel w d0 (commitCountAt acc w) = some lo ∧
      rr.result = Except.ok (parseGitDiffOutput
        ((acc.exec lo.st (cmdDiff (diffArgOf b ref lo.noMergeBase))).stdout)) ∧
      rr.warning = lo.noMergeBase ∧
      rr.trace = cmdRevListCount :: lo.trace ++ [cmdDiff (diffArgOf b ref lo.noMergeBase)] ∧
      rr.final = lo.st := by
  unfold loopAndDiff at h
  rcases hml : mergeBaseLoop acc base ref b fuel w d0 (commitCountAt acc w) with _ | lo
  · rw [hml] at h
    simp at h
  · rw [hml] at h
    refine ⟨lo, rfl, ?_, ?_, ?_, ?_⟩ <;>
      · injection h with h'
        subst h'
        rfl

theorem gcsmb_ok_parse {σ : Type} (acc : GitAcc σ) (w0 : σ) (base ref : String)
    (d0 fuel : Nat) (rr : RunResult σ) (fs : List File)
    (hg : getChangesSinceMergeBase acc w0 base ref d0 fuel = some rr)
    (hok : rr.result = Except.ok fs) :
    ∃ (s : σ) (arg : String), fs = parseGitDiffOutput ((acc.exec s (cmdDiff arg)).stdout) := by
  simp only [getChangesSinceMergeBase] at hg
  rcases h0 : (getFullRef acc w0 base).1 with _ | b
  · simp only [h0] at hg
    rcases h1 : (getFullRef acc (acc.fetch w0 (cmdFetchDepthNoTags d0 base ref)) base).1 with _ | b
    · simp only [h1] at hg
      rcases h2 : (getFullRef acc (acc.fetch (acc.fetch w0 (cmdFetchDepthNoTags d0 base ref))
          (cmdFetchTags base ref)) base).1 with _ | b
      · simp only [h2] at hg
        injection hg with h'
        subst h'
        simp at hok
      · simp only [h2] at hg
        obtain ⟨rr', hsome, hres, -, -, -⟩ := prependTrace_some _ _ _ hg
        obtain ⟨lo, -, hres', -, -, -⟩ := loopAndDiff_some _ _ _ _ _ _ _ _ hsome
        rw [hres, hres'] at hok
        exact ⟨lo.st, diffArgOf b ref lo.noMergeBase, (Except.ok.inj hok).symm⟩
    · simp only [h1] at hg
      obtain ⟨rr', hsome, hres, -, -, -⟩ := prependTrace_some _ _ _ hg
      obtain ⟨lo, -, hres', -, -, -⟩ := loopAndDiff_some _ _ _ _ _ _ _ _ hsome
      rw [hres, hres'] at hok
      exact ⟨lo.st, diffArgOf b ref lo.noMergeBase, (Except.ok.inj hok).symm⟩
  · simp only [h0] at hg
    by_cases hmb : (acc.exec w0 (cmdMergeBase b ref)).code = 0
    · rw [if_pos hmb] at hg
      injection hg with h'
      subst h'
      simp only at hok
      exact ⟨w0, diffArgOf b ref false, (Except.ok.inj hok).symm⟩
    · rw [if_neg hmb] at hg
      obtain ⟨rr', hsome, hres, -, -, -⟩ := prependTrace_some _ _ _ hg
      obtain ⟨lo, -, hres', -, -, -⟩ := loopAndDiff_some _ _ _ _ _ _ _ _ hsome
      rw [hres, hres'] at hok
      exact ⟨lo.st, diffArgOf b ref lo.noMergeBase, (Except.ok.inj hok).symm⟩

/-! ### Claim theorem: per-path uniqueness of a change-set -/

/-- C8: whenever the accessor's raw outputs list each path at most once,
every change-set produced by a discovery call (getChangesInLastCommit,
getChanges, getChangesOnHead, getChangesSinceMergeBase,
listAllFilesAsAdded) contains at most one record per path: the filename
lists are duplicate-free. -/
theorem c8_changeset_path_unique {σ : Type} (acc : GitAcc σ)
    (hdiff : ∀ (s : σ) (arg : String),
      (oddIndexed (tokensOf ((acc.exec s (cmdDiff arg)).stdout))).Nodup)
    (hlog : ∀ s : σ, (oddIndexed (tokensOf ((acc.exec s cmdLogLast).stdout))).Nodup)
    (hls : ∀ s : σ, (tokensOf ((acc.exec s cmdLsFiles).stdout)).Nodup)
    (w : σ) (base ref : String) (d0 fuel : Nat) :
    ((getChangesInLastCommit acc w).1.map File.filename).Nodup ∧
    ((getChanges acc w base).1.map File.filename).Nodup ∧
    ((getChangesOnHead acc w).1.map File.filename).Nodup ∧
    ((listAllFilesAsAdded acc w).1.map File.filename).Nodup ∧
    ∀ (rr : RunResult σ) (fs : List File),
      getChangesSinceMergeBase acc w base ref d0 fuel = some rr →
      rr.result = Except.ok fs → (fs.map File.filename).Nodup := by
  have hparse : ∀ out : String, (oddIndexed (tokensOf out)).Nodup →
      ((parseGitDiffOutput out).map File.filename).Nodup := by
    intro out h
    rw [parseGitDiffOutput, filenames_pairUp]
    exact h
  refine ⟨hparse _ (hlog w), ?_, hparse _ (hdiff _ _), ?_, ?_⟩
  · unfold getChanges
    by_cases h : (acc.exec w (cmdCatFile base)).code = 0
    · rw [if_pos h]
      exact hparse _ (hdiff _ _)
    · rw [if_neg h]
      exact hparse _ (hdiff _ _)
  · have hmap : (listAllFilesAsAdded acc w).1.map File.filename =
        tokensOf ((acc.exec w cmdLsFiles).stdout) := by
      simp only [listAllFilesAsAdded, List.map_map]
      exact List.map_id _
    rw [hmap]
    exact hls w
  · intro rr fs hg hok
    obtain ⟨s, arg, rfl⟩ := gcsmb_ok_parse acc w base ref d0 fuel rr fs hg hok
    exact hparse _ (hdiff _ _)

/-- Witness for C8 at a concrete accessor whose every output is the
two-record stream `"A\0a.txt\0M\0b.txt\0"`. -/
theorem c8_changeset_path_unique_witness :
    ((getChangesInLastCommit accDiff ()).1.map File.filename).Nodup ∧
    ((getChanges accDiff () "b").1.map File.filename).Nodup ∧
    ((getChangesOnHead accDiff ()).1.map File.filename).Nodup ∧
    ((listAllFilesAsAdded accDiff ()).1.map File.filename).Nodup ∧
    ∀ (rr : RunResult Unit) (fs : List File),
      getChangesSinceMergeBase accDiff () "b" "r" 2 1 = some rr →
      rr.result = Except.ok fs → (fs.map File.filename).Nodup :=
  c8_changeset_path_unique accDiff
    (by intro s arg; change (oddIndexed (tokensOf "A\x00a.txt\x00M\x00b.txt\x00")).Nodup; decide)
    (by intro s; change (oddIndexed (tokensOf "A\x00a.txt\x00M\x00b.txt\x00")).Nodup; decide)
    (by intro s; change (tokensOf "A\x00a.txt\x00M\x00b.txt\x00").Nodup; decide)
    () "b" "r" 2 1

/-! ### Claim theorem: termination of the merge-base search loop -/

/-- C2: for every accessor behavior in which, along the loop's own
iteration sequence, eventually either a merge base becomes visible or a
deepen fetch would leave the reported commit count unchanged, the
merge-base search loop of getChangesSinceMergeBase terminates: some finite
fuel (and every larger fuel) makes `mergeBaseLoop` return a result, so the
depth doubling, the commit-count-unchanged early exit and the single final
full-history fetch bound the loop to finitely many iterations. -/
theorem c2_mergeBaseLoop_terminates {σ : Type} (acc : GitAcc σ) (base ref baseRef : String) :
    ∀ (k : Nat) (s : σ) (d : Nat) (lc : Int),
      loopDone acc base ref baseRef ((loopStep acc base ref)^[k] (s, d, lc)) →
      ∃ lo, ∀ f, k + 1 ≤ f → mergeBaseLoop acc base ref baseRef f s d lc = some lo := by
  intro k
  induction k with
  | zero =>
    intro s d lc h
    rw [Function.iterate_zero_apply] at h
    by_cases hmb : (acc.exec s (cmdMergeBase baseRef ref)).code = 0
    · refine ⟨⟨s, false, [cmdMergeBase baseRef ref]⟩, ?_⟩
      intro f hf
      obtain ⟨f', rfl⟩ : ∃ f', f = f' + 1 := ⟨f - 1, by omega⟩
      simp only [mergeBaseLoop]
      rw [if_pos hmb]
    · have hstall : commitCountAt acc (acc.fetch s (cmdDeepen (satDouble d) base ref)) = lc :=
        h.resolve_left hmb
      refine ⟨⟨acc.fetch (acc.fetch s (cmdDeepen (satDouble d) base ref)) cmdFetchFull,
        if (acc.exec (acc.fetch (acc.fetch s (cmdDeepen (satDouble d) base ref)) cmdFetchFull)
            (cmdMergeBase baseRef ref)).code = 0 then false else true,
        [cmdMergeBase baseRef ref, cmdDeepen (satDouble d) base ref, cmdRevListCount,
          cmdFetchFull, cmdMergeBase baseRef ref]⟩, ?_⟩
      intro f hf
      obtain ⟨f', rfl⟩ : ∃ f', f = f' + 1 := ⟨f - 1, by omega⟩
      simp only [mergeBaseLoop]
      rw [if_neg hmb, if_pos hstall]
  | succ k ih =>
    intro s d lc h
    by_cases hmb : (acc.exec s (cmdMergeBase baseRef ref)).code = 0
    · refine ⟨⟨s, false, [cmdMergeBase baseRef ref]⟩, ?_⟩
      intro f hf
      obtain ⟨f', rfl⟩ : ∃ f', f = f' + 1 := ⟨f - 1, by omega⟩
      simp only [mergeBaseLoop]
      rw [if_pos hmb]
    · by_cases hc : commitCountAt acc (acc.fetch s (cmdDeepen (satDouble d) base ref)) = lc
      · refine ⟨⟨acc.fetch (acc.fetch s (cmdDeepen (satDouble d) base ref)) cmdFetchFull,
          if (acc.exec (acc.fetch (acc.fetch s (cmdDeepen (satDouble d) base ref)) cmdFetchFull)
              (cmdMergeBase baseRef ref)).code = 0 then false else true,
          [cmdMergeBase baseRef ref, cmdDeepen (satDouble d) base ref, cmdRevListCount,
            cmdFetchFull, cmdMergeBase baseRef ref]⟩, ?_⟩
        intro f hf
        obtain ⟨f', rfl⟩ : ∃ f', f = f' + 1 := ⟨f - 1, by omega⟩
        simp only [mergeBaseLoop]
        rw [if_neg hmb, if_pos hc]
      · rw [Function.iterate_succ_apply] at h
        obtain ⟨lo, hlo⟩ := ih (acc.fetch s (cmdDeepen (satDouble d) base ref)) (satDouble d)
          (commitCountAt acc (acc.fetch s (cmdDeepen (satDouble d) base ref))) h
        refine ⟨⟨lo.st, lo.noMergeBase, cmdMergeBase baseRef ref ::
          cmdDeepen (satDouble d) base ref :: cmdRevListCount :: lo.trace⟩, ?_⟩
        intro f hf
        obtain ⟨f', rfl⟩ : ∃ f', f = f' + 1 := ⟨f - 1, by omega⟩
        simp only [mergeBaseLoop]
        rw [if_neg hmb, if_neg hc, hlo f' (by omega)]
        rfl

/-- Witness for C2: with the trivial accessor a merge base is visible at
the very first check, so the loop terminates at every positive fuel. -/
theorem c2_mergeBaseLoop_terminates_witness :
    ∃ lo, ∀ f, 0 + 1 ≤ f → mergeBaseLoop trivAcc "b" "r" "br" f () 2 0 = some lo :=
  c2_mergeBaseLoop_terminates trivAcc "b" "r" "br" 0 () 2 0 (Or.inl rfl)

/-! ### Claim theorem: unresolved base fails with RefNotFoundError -/

theorem getFullRef_trace {σ : Type} (acc : GitAcc σ) (w : σ) (n : String) :
    (getFullRef acc w n).2 = [] ∨ (getFullRef acc w n).2 = [cmdShowRef n] := by
  unfold getFullRef
  by_cases h : isGitSha n = true
  · rw [if_pos h]
    exact Or.inl rfl
  · rw [if_neg h]
    right
    rcases hr : getFullRefRefs ((acc.exec w (cmdShowRef n)).stdout) with _ | ⟨r0, rs⟩
    · simp only [hr]
    · simp only [hr]
      rcases hf : (r0 :: rs).find? originPred with _ | r <;> simp only [hf]

/-- C5: when the base reference resolves to nothing before the initial
shallow fetch, after it, and after the retry fetch that includes tags,
getChangesSinceMergeBase fails with the distinguished fatal
`refNotFound base` error (naming the unresolved reference), the retry fetch
including tags is in the trace, and no diff command is ever issued. -/
theorem c5_refNotFound_after_tags_retry {σ : Type} (acc : GitAcc σ) (w0 : σ)
    (base ref : String) (d0 fuel : Nat)
    (h0 : (getFullRef acc w0 base).1 = none)
    (h1 : (getFullRef acc (acc.fetch w0 (cmdFetchDepthNoTags d0 base ref)) base).1 = none)
    (h2 : (getFullRef acc (acc.fetch (acc.fetch w0 (cmdFetchDepthNoTags d0 base ref))
        (cmdFetchTags base ref)) base).1 = none) :
    ∃ tr, getChangesSinceMergeBase acc w0 base ref d0 fuel =
        some ⟨Except.error (GitError.refNotFound base), false, tr,
          acc.fetch (acc.fetch w0 (cmdFetchDepthNoTags d0 base ref)) (cmdFetchTags base ref)⟩ ∧
      (∀ arg, cmdDiff arg ∉ tr) ∧ cmdFetchTags base ref ∈ tr := by
  refine ⟨(getFullRef acc w0 base).2 ++ cmdFetchDepthNoTags d0 base ref ::
      ((getFullRef acc (acc.fetch w0 (cmdFetchDepthNoTags d0 base ref)) base).2 ++
        cmdFetchTags base ref ::
        (getFullRef acc (acc.fetch (acc.fetch w0 (cmdFetchDepthNoTags d0 base ref))
          (cmdFetchTags base ref)) base).2), ?_, ?_, ?_⟩
  · simp only [getChangesSinceMergeBase, h0, h1, h2]
  · intro arg
    have t0 := getFullRef_trace acc w0 base
    have t1 := getFullRef_trace acc (acc.fetch w0 (cmdFetchDepthNoTags d0 base ref)) base
    have t2 := getFullRef_trace acc (acc.fetch (acc.fetch w0 (cmdFetchDepthNoTags d0 base ref))
      (cmdFetchTags base ref)) base
    rcases t0 with t0 | t0 <;> rcases t1 with t1 | t1 <;> rcases t2 with t2 | t2 <;>
      simp [t0, t1, t2, List.mem_append, List.mem_cons, diff_ne_showRef,
        diff_ne_fetchDepthNoTags, diff_ne_fetchTags]
  · simp [List.mem_append, List.mem_cons]

/-- Witness for C5: with the trivial accessor (empty `show-ref` output at
every state) the base `main` never resolves and the run fails with
`refNotFound main`. -/
theorem c5_refNotFound_after_tags_retry_witness :
    ∃ tr, getChangesSinceMergeBase trivAcc () "main" "dev" 2 1 =
        some ⟨Except.error (GitError.refNotFound "main"), false, tr, ()⟩ ∧
      (∀ arg, cmdDiff arg ∉ tr) ∧ cmdFetchTags "main" "dev" ∈ tr :=
  c5_refNotFound_after_tags_retry trivAcc () "main" "dev" 2 1 rfl rfl rfl

/-! ### Replay, saturating doubling and loop-block lemmas -/

theorem satIter_one (d : Nat) : satIter d 1 = satDouble d := rfl

theorem satIter_shift (d n : Nat) : satIter (satDouble d) n = satIter d (n + 1) :=
  (Function.iterate_succ_apply satDouble n d).symm

theorem replay_nil {σ : Type} (acc : GitAcc σ) (s : σ) : replay acc s [] = s := rfl

theorem replay_cons {σ : Type} (acc : GitAcc σ) (s : σ) (c : Cmd) (r : List Cmd) :
    replay acc s (c :: r) = replay acc (if isFetchCmd c then acc.fetch s c else s) r := rfl

theorem replay_nonfetch {σ : Type} (acc : GitAcc σ) (s : σ) {c : Cmd} (r : List Cmd)
    (h : isFetchCmd c = false) : replay acc s (c :: r) = replay acc s r := by
  rw [replay_cons, h]
  simp

theorem replay_fetch {σ : Type} (acc : GitAcc σ) (s : σ) {c : Cmd} (r : List Cmd)
    (h : isFetchCmd c = true) : replay acc s (c :: r) = replay acc (acc.fetch s c) r := by
  rw [replay_cons, h]
  simp

theorem replay_append {σ : Type} (acc : GitAcc σ) : ∀ (a b : List Cmd) (s : σ),
    replay acc s (a ++ b) = replay acc (replay acc s a) b
  | [], _, _ => rfl
  | c :: t, b, s => by
    rw [List.cons_append, replay_cons, replay_cons]
    exact replay_append acc t b _

theorem replay_getFullRef_trace {σ : Type} (acc : GitAcc σ) (s w : σ) (n : String) :
    replay acc s ((getFullRef acc w n).2) = s := by
  rcases getFullRef_trace acc w n with h | h <;> rw [h]
  · rfl
  · rw [replay_nonfetch acc s [] (isFetchCmd_showRef n)]
    rfl

theorem replay_loopBlocks_succ {σ : Type} (acc : GitAcc σ) (base ref br : String)
    (d k : Nat) (s : σ) :
    replay acc s (loopBlocks base ref br d (k + 1)) =
      replay acc (acc.fetch s (cmdDeepen (satDouble d) base ref))
        (loopBlocks base ref br (satDouble d) k) := by
  rw [loopBlocks]
  rw [replay_nonfetch acc s _ (isFetchCmd_mergeBase br ref)]
  rw [replay_fetch acc s _ (isFetchCmd_deepen (satDouble d) base ref)]
  rw [replay_nonfetch acc _ _ isFetchCmd_revList]

theorem loopBlocks_filter_isDeepen (base ref br : String) : ∀ (k d : Nat),
    (loopBlocks base ref br d k).filter isDeepen =
      (List.range k).map (fun i => cmdDeepen (satIter d (i + 1)) base ref)
  | 0, _ => rfl
  | k + 1, d => by
    have ih := loopBlocks_filter_isDeepen base ref br k (satDouble d)
    simp only [loopBlocks, List.filter_cons, isDeepen_mergeBase, isDeepen_revList,
      isDeepen_deepen, Bool.false_eq_true, if_false, if_true, ih]
    rw [List.range_succ_eq_map, List.map_cons, List.map_map]
    simp [Function.comp_def, satIter_one, satIter_shift]

theorem full_not_mem_loopBlocks (base ref br : String) : ∀ (k d : Nat),
    cmdFetchFull ∉ loopBlocks base ref br d k
  | 0, _ => by simp [loopBlocks]
  | k + 1, d => by
    simp only [loopBlocks, List.mem_cons, not_or]
    exact ⟨full_ne_mergeBase br ref, full_ne_deepen _ _ _, full_ne_revList,
      full_not_mem_loopBlocks base ref br k (satDouble d)⟩

theorem diff_not_mem_loopBlocks (arg base ref br : String) : ∀ (k d : Nat),
    cmdDiff arg ∉ loopBlocks base ref br d k
  | 0, _ => by simp [loopBlocks]
  | k + 1, d => by
    simp only [loopBlocks, List.mem_cons, not_or]
    exact ⟨diff_ne_mergeBase arg br ref, diff_ne_deepen arg _ _ _, diff_ne_revList arg,
      diff_not_mem_loopBlocks arg base ref br k (satDouble d)⟩

theorem split_unique {α : Type _} (a : α) : ∀ (xs ys l r : List α),
    a ∉ xs → a ∉ ys → xs ++ a :: ys = l ++ a :: r → l = xs ∧ r = ys
  | [], ys, l, r, _, hys, heq => by
    cases l with
    | nil =>
      refine ⟨rfl, ?_⟩
      have h2 : ys = r := by simpa using heq
      exact h2.symm
    | cons x l' =>
      exfalso
      rw [List.nil_append, List.cons_append] at heq
      have h2 : ys = l' ++ a :: r := (List.cons.injEq _ _ _ _ ▸ heq).2
      exact hys (h2 ▸ List.mem_append_right l' (List.mem_cons_self a r))
  | x :: xs', ys, l, r, hxs, hys, heq => by
    cases l with
    | nil =>
      exfalso
      rw [List.cons_append, List.nil_append] at heq
      have h1 : x = a := (List.cons.injEq _ _ _ _ ▸ heq).1
      exact hxs (h1 ▸ List.mem_cons_self x xs')
    | cons y l' =>
      rw [List.cons_append, List.cons_append] at heq
      have h1 : x = y := (List.cons.injEq _ _ _ _ ▸ heq).1
      have h2 : xs' ++ a :: ys = l' ++ a :: r := (List.cons.injEq _ _ _ _ ▸ heq).2
      have hrec := split_unique a xs' ys l' r
        (fun hm => hxs (List.mem_cons_of_mem x hm)) hys h2
      exact ⟨by rw [hrec.1, h1], hrec.2⟩

/-! ### Shape of the merge-base search loop trace -/

theorem mergeBaseLoop_shape {σ : Type} (acc : GitAcc σ) (base ref br : String) :
    ∀ (fuel : Nat) (s : σ) (d : Nat) (lo : LoopOut σ),
      mergeBaseLoop acc base ref br fuel s d (commitCountAt acc s) = some lo →
      (∃ k, lo.trace = loopBlocks base ref br d k ++ [cmdMergeBase br ref] ∧
        lo.noMergeBase = false) ∨
      (∃ k, lo.trace = loopBlocks base ref br d k ++
          [cmdMergeBase br ref, cmdDeepen (satIter d (k + 1)) base ref, cmdRevListCount,
            cmdFetchFull, cmdMergeBase br ref] ∧
        commitCountAt acc (acc.fetch (replay acc s (loopBlocks base ref br d k))
            (cmdDeepen (satIter d (k + 1)) base ref)) =
          commitCountAt acc (replay acc s (loopBlocks base ref br d k))) := by
  intro fuel
  induction fuel with
  | zero =>
    intro s d lo h
    simp [mergeBaseLoop] at h
  | succ fuel ih =>
    intro s d lo h
    simp only [mergeBaseLoop] at h
    by_cases hmb : (acc.exec s (cmdMergeBase br ref)).code = 0
    · rw [if_pos hmb] at h
      injection h with h'
      subst h'
      exact Or.inl ⟨0, rfl, rfl⟩
    · rw [if_neg hmb] at h
      by_cases hc : commitCountAt acc (acc.fetch s (cmdDeepen (satDouble d) base ref)) =
          commitCountAt acc s
      · rw [if_pos hc] at h
        injection h with h'
        subst h'
        exact Or.inr ⟨0, rfl, hc⟩
      · rw [if_neg hc] at h
        obtain ⟨lo', hml, hfl⟩ := Option.map_eq_some'.mp h
        rcases ih (acc.fetch s (cmdDeepen (satDouble d) base ref)) (satDouble d) lo' hml with
          ⟨k, htr, hnm⟩ | ⟨k, htr, hcnt⟩
        · refine Or.inl ⟨k + 1, ?_, ?_⟩
          · rw [← hfl]
            show cmdMergeBase br ref :: cmdDeepen (satDouble d) base ref :: cmdRevListCount ::
              lo'.trace = _
            rw [htr, loopBlocks]
            simp
          · rw [← hfl]
            exact hnm
        · refine Or.inr ⟨k + 1, ?_, ?_⟩
          · rw [← hfl]
            show cmdMergeBase br ref :: cmdDeepen (satDouble d) base ref :: cmdRevListCount ::
              lo'.trace = _
            rw [htr, loopBlocks]
            simp [satIter_shift]
          · rw [replay_loopBlocks_succ, ← satIter_shift]
            exact hcnt

/-! ### Pre-loop traces are clean -/

theorem preClean_nil : preClean ([] : List Cmd) :=
  ⟨rfl, by simp, fun _ => by simp⟩

theorem preClean_append {P Q : List Cmd} (hP : preClean P) (hQ : preClean Q) :
    preClean (P ++ Q) := by
  refine ⟨?_, ?_, fun arg => ?_⟩
  · rw [List.filter_append, hP.1, hQ.1, List.append_nil]
  · rw [List.mem_append]
    exact fun h => h.elim hP.2.1 hQ.2.1
  · rw [List.mem_append]
    exact fun h => h.elim (hP.2.2 arg) (hQ.2.2 arg)

theorem preClean_single {c : Cmd} (h1 : isDeepen c = false) (h2 : cmdFetchFull ≠ c)
    (h3 : ∀ arg, cmdDiff arg ≠ c) : preClean [c] := by
  refine ⟨?_, ?_, fun arg => ?_⟩
  · simp [List.filter_cons, h1]
  · simp [h2]
  · simp [h3 arg]

theorem preClean_getFullRef {σ : Type} (acc : GitAcc σ) (w : σ) (n : String) :
    preClean ((getFullRef acc w n).2) := by
  rcases getFullRef_trace acc w n with h | h <;> rw [h]
  · exact preClean_nil
  · exact preClean_single (isDeepen_showRef n) (full_ne_showRef n) (fun arg => diff_ne_showRef arg n)

theorem preClean_mergeBase (b r : String) : preClean [cmdMergeBase b r] :=
  preClean_single (isDeepen_mergeBase b r) (full_ne_mergeBase b r)
    (fun arg => diff_ne_mergeBase arg b r)

theorem preClean_fetchDepthNoTags (d : Nat) (b r : String) :
    preClean [cmdFetchDepthNoTags d b r] :=
  preClean_single (isDeepen_fetchDepthNoTags d b r) (full_ne_fetchDepthNoTags d b r)
    (fun arg => diff_ne_fetchDepthNoTags arg d b r)

theorem preClean_fetchTags (b r : String) : preClean [cmdFetchTags b r] :=
  preClean_single (isDeepen_fetchTags b r) (full_ne_fetchTags b r)
    (fun arg => diff_ne_fetchTags arg b r)

/-! ### Full inversion of successful getChangesSinceMergeBase runs -/

theorem gcsmb_ok_cases {σ : Type} (acc : GitAcc σ) (w0 : σ) (base ref : String)
    (d0 fuel : Nat) (rr : RunResult σ) (fs : List File)
    (hg : getChangesSinceMergeBase acc w0 base ref d0 fuel = some rr)
    (hok : rr.result = Except.ok fs) :
    (∃ b P, preClean P ∧ rr.warning = false ∧
      rr.trace = P ++ [cmdDiff (diffArgOf b ref false)]) ∨
    (∃ b P lo, preClean P ∧
      mergeBaseLoop acc base ref b fuel (replay acc w0 P) d0
        (commitCountAt acc (replay acc w0 P)) = some lo ∧
      rr.warning = lo.noMergeBase ∧
      rr.trace = P ++ ((cmdRevListCount :: lo.trace) ++
        [cmdDiff (diffArgOf b ref lo.noMergeBase)])) := by
  simp only [getChangesSinceMergeBase] at hg
  rcases h0 : (getFullRef acc w0 base).1 with _ | b
  · simp only [h0] at hg
    rcases h1 : (getFullRef acc (acc.fetch w0 (cmdFetchDepthNoTags d0 base ref)) base).1
      with _ | b
    · simp only [h1] at hg
      rcases h2 : (getFullRef acc (acc.fetch (acc.fetch w0 (cmdFetchDepthNoTags d0 base ref))
          (cmdFetchTags base ref)) base).1 with _ | b
      · simp only [h2] at hg
        injection hg with h'
        subst h'
        simp at hok
      · -- resolved after the tags fetch; loop runs at the doubly fetched state
        simp only [h2] at hg
        obtain ⟨rr', hsome, hres, hwarn, htr, -⟩ := prependTrace_some _ _ _ hg
        obtain ⟨lo, hml, -, hwarn', htr', -⟩ := loopAndDiff_some _ _ _ _ _ _ _ _ hsome
        right
        refine ⟨b, (getFullRef acc w0 base).2 ++ cmdFetchDepthNoTags d0 base ref ::
          ((getFullRef acc (acc.fetch w0 (cmdFetchDepthNoTags d0 base ref)) base).2 ++
            cmdFetchTags base ref ::
            (getFullRef acc (acc.fetch (acc.fetch w0 (cmdFetchDepthNoTags d0 base ref))
              (cmdFetchTags base ref)) base).2), lo, ?_, ?_, ?_, ?_⟩
        · refine preClean_append (preClean_getFullRef acc w0 base) ?_
          show preClean ([cmdFetchDepthNoTags d0 base ref] ++ _)
          refine preClean_append (preClean_fetchDepthNoTags d0 base ref) ?_
          refine preClean_append (preClean_getFullRef acc _ base) ?_
          show preClean ([cmdFetchTags base ref] ++ _)
          exact preClean_append (preClean_fetchTags base ref) (preClean_getFullRef acc _ base)
        · have hrep : replay acc w0 ((getFullRef acc w0 base).2 ++
              cmdFetchDepthNoTags d0 base ref ::
              ((getFullRef acc (acc.fetch w0 (cmdFetchDepthNoTags d0 base ref)) base).2 ++
                cmdFetchTags base ref ::
                (getFullRef acc (acc.fetch (acc.fetch w0 (cmdFetchDepthNoTags d0 base ref))
                  (cmdFetchTags base ref)) base).2)) =
              acc.fetch (acc.fetch w0 (cmdFetchDepthNoTags d0 base ref))
                (cmdFetchTags base ref) := by
            rw [replay_append, replay_getFullRef_trace,
              replay_fetch acc _ _ (isFetchCmd_fetchDepthNoTags d0 base ref),
              replay_append, replay_getFullRef_trace,
              replay_fetch acc _ _ (isFetchCmd_fetchTags base ref),
              replay_getFullRef_trace]
          rw [hrep]
          exact hml
        · rw [hwarn, hwarn']
        · rw [htr, htr']
    · -- resolved after the initial fetch; loop runs at the fetched state
      simp only [h1] at hg
      obtain ⟨rr', hsome, hres, hwarn, htr, -⟩ := prependTrace_some _ _ _ hg
      obtain ⟨lo, hml, -, hwarn', htr', -⟩ := loopAndDiff_some _ _ _ _ _ _ _ _ hsome
      right
      refine ⟨b, (getFullRef acc w0 base).2 ++ cmdFetchDepthNoTags d0 base ref ::
        (getFullRef acc (acc.fetch w0 (cmdFetchDepthNoTags d0 base ref)) base).2, lo,
        ?_, ?_, ?_, ?_⟩
      · refine preClean_append (preClean_getFullRef acc w0 base) ?_
        show preClean ([cmdFetchDepthNoTags d0 base ref] ++ _)
        exact preClean_append (preClean_fetchDepthNoTags d0 base ref)
          (preClean_getFullRef acc _ base)
      · have hrep : replay acc w0 ((getFullRef acc w0 base).2 ++
            cmdFetchDepthNoTags d0 base ref ::
            (getFullRef acc (acc.fetch w0 (cmdFetchDepthNoTags d0 base ref)) base).2) =
            acc.fetch w0 (cmdFetchDepthNoTags d0 base ref) := by
          rw [replay_append, replay_getFullRef_trace,
            replay_fetch acc _ _ (isFetchCmd_fetchDepthNoTags d0 base ref),
            replay_getFullRef_trace]
        rw [hrep]
        exact hml
      · rw [hwarn, hwarn']
      · rw [htr, htr']
  · simp only [h0] at hg
    by_cases hmb : (acc.exec w0 (cmdMergeBase b ref)).code = 0
    · rw [if_pos hmb] at hg
      injection hg with h'
      subst h'
      left
      refine ⟨b, (getFullRef acc w0 base).2 ++ [cmdMergeBase b ref], ?_, rfl, ?_⟩
      · exact preClean_append (preClean_getFullRef acc w0 base) (preClean_mergeBase b ref)
      · simp [List.append_assoc]
    · rw [if_neg hmb] at hg
      obtain ⟨rr', hsome, hres, hwarn, htr, -⟩ := prependTrace_some _ _ _ hg
      obtain ⟨lo, hml, -, hwarn', htr', -⟩ := loopAndDiff_some _ _ _ _ _ _ _ _ hsome
      right
      refine ⟨b, (getFullRef acc w0 base).2 ++
        [cmdMergeBase b ref, cmdFetchDepthNoTags d0 base ref], lo, ?_, ?_, ?_, ?_⟩
      · refine preClean_append (preClean_getFullRef acc w0 base) ?_
        show preClean ([cmdMergeBase b ref] ++ [cmdFetchDepthNoTags d0 base ref])
        exact preClean_append (preClean_mergeBase b ref)
          (preClean_fetchDepthNoTags d0 base ref)
      · have hrep : replay acc w0 ((getFullRef acc w0 base).2 ++
            [cmdMergeBase b ref, cmdFetchDepthNoTags d0 base ref]) =
            acc.fetch w0 (cmdFetchDepthNoTags d0 base ref) := by
          rw [replay_append, replay_getFullRef_trace,
            replay_nonfetch acc _ _ (isFetchCmd_mergeBase b ref),
            replay_fetch acc _ _ (isFetchCmd_fetchDepthNoTags d0 base ref)]
          rfl
        rw [hrep]
        exact hml
      · rw [hwarn, hwarn']
      · rw [htr, htr']

/-! ### Claim theorem: the merge-base search protocol -/

/-- C1: on every successful run of getChangesSinceMergeBase, (i) the
bounded deepen fetches form the depth sequence obtained by doubling the
initial depth before each attempt, saturating at `Number.MAX_SAFE_INTEGER`;
(ii) at most one unrestricted full-history fetch is issued; (iii) after a
full fetch nothing follows but the final merge-base re-check and the diff —
in particular no further bounded-depth deepen attempt is ever made;
(iv) the no-merge-base warning is emitted only after the full fetch was
attempted; (v) the run ends with exactly one diff, two-dot (`base..ref`)
when the warning fired and three-dot (`base...ref`) otherwise; and (vi) the
full fetch is issued if and only if some deepen attempt left the
repository's commit count unchanged, and then immediately after that
attempt's recount. -/
theorem c1_merge_base_search_protocol {σ : Type} (acc : GitAcc σ) (w0 : σ)
    (base ref : String) (d0 fuel : Nat) (rr : RunResult σ) (fs : List File)
    (hg : getChangesSinceMergeBase acc w0 base ref d0 fuel = some rr)
    (hok : rr.result = Except.ok fs) :
    (∃ k, rr.trace.filter isDeepen =
      (List.range k).map (fun i => cmdDeepen (satIter d0 (i + 1)) base ref)) ∧
    rr.trace.count cmdFetchFull ≤ 1 ∧
    (∀ l r, rr.trace = l ++ cmdFetchFull :: r →
      ∃ b arg, r = [cmdMergeBase b ref, cmdDiff arg]) ∧
    (rr.warning = true → cmdFetchFull ∈ rr.trace) ∧
    (∃ b, rr.trace.getLast? =
      some (cmdDiff (if rr.warning then b ++ ".." ++ ref else b ++ "..." ++ ref))) ∧
    (cmdFetchFull ∈ rr.trace ↔
      ∃ l dp r, rr.trace = l ++ cmdDeepen dp base ref :: cmdRevListCount ::
          cmdFetchFull :: r ∧
        commitCountAt acc (acc.fetch (replay acc w0 l) (cmdDeepen dp base ref)) =
          commitCountAt acc (replay acc w0 l)) := by
  rcases gcsmb_ok_cases acc w0 base ref d0 fuel rr fs hg hok with
    ⟨b, P, hP, hw, htr⟩ | ⟨b, P, lo, hP, hml, hw, htr⟩
  · -- a merge base existed at once: no loop ran at all
    have hfull : cmdFetchFull ∉ rr.trace := by
      rw [htr]
      simp [List.mem_append, List.mem_cons, hP.2.1, full_ne_diff]
    refine ⟨⟨0, ?_⟩, ?_, ?_, ?_, ⟨b, ?_⟩, ?_⟩
    · rw [htr, List.filter_append, hP.1]
      simp [List.filter_cons, isDeepen_diff]
    · rw [List.count_eq_zero.2 hfull]
      omega
    · intro l r heq
      exact absurd (heq ▸ List.mem_append_right l (List.mem_cons_self _ _)) hfull
    · intro h
      rw [hw] at h
      cases h
    · rw [htr, hw, List.getLast?_concat]
      rfl
    · constructor
      · intro h
        exact absurd h hfull
      · rintro ⟨l, dp, r, heq, -⟩
        refine absurd (heq ▸ ?_) hfull
        simp
  · rcases mergeBaseLoop_shape acc base ref b fuel (replay acc w0 P) d0 lo hml with
      ⟨k, hlt, hnm⟩ | ⟨k, hlt, hcnt⟩
    · -- the loop found a merge base without stalling: no full fetch
      rw [hnm] at hw htr
      have hfull : cmdFetchFull ∉ rr.trace := by
        rw [htr, hlt]
        simp [List.mem_append, List.mem_cons, hP.2.1, full_ne_revList, full_ne_mergeBase,
          full_ne_diff, full_not_mem_loopBlocks base ref b k d0]
      refine ⟨⟨k, ?_⟩, ?_, ?_, ?_, ⟨b, ?_⟩, ?_⟩
      · rw [htr, hlt]
        simp [List.filter_append, List.filter_cons, hP.1, isDeepen_revList,
          isDeepen_mergeBase, isDeepen_diff, loopBlocks_filter_isDeepen base ref b k d0]
      · rw [List.count_eq_zero.2 hfull]
        omega
      · intro l r heq
        exact absurd (heq ▸ List.mem_append_right l (List.mem_cons_self _ _)) hfull
      · intro h
        rw [hw] at h
        cases h
      · rw [htr, ← List.append_assoc, List.getLast?_concat, hw]
        rfl
      · constructor
        · intro h
          exact absurd h hfull
        · rintro ⟨l, dp, r, heq, -⟩
          refine absurd (heq ▸ ?_) hfull
          simp
    · -- the loop stalled: exactly one full fetch, then only re-check and diff
      have htrace : rr.trace =
          (P ++ cmdRevListCount :: (loopBlocks base ref b d0 k ++
            [cmdMergeBase b ref, cmdDeepen (satIter d0 (k + 1)) base ref, cmdRevListCount])) ++
          cmdFetchFull :: [cmdMergeBase b ref, cmdDiff (diffArgOf b ref lo.noMergeBase)] := by
        rw [htr, hlt]
        simp only [List.cons_append, List.append_assoc, List.nil_append]
      have hfullA : cmdFetchFull ∉
          P ++ cmdRevListCount :: (loopBlocks base ref b d0 k ++
            [cmdMergeBase b ref, cmdDeepen (satIter d0 (k + 1)) base ref, cmdRevListCount]) := by
        simp [List.mem_append, List.mem_cons, hP.2.1, full_ne_revList, full_ne_mergeBase,
          full_ne_deepen, full_not_mem_loopBlocks base ref b k d0]
      have hfullB : cmdFetchFull ∉
          [cmdMergeBase b ref, cmdDiff (diffArgOf b ref lo.noMergeBase)] := by
        simp [List.mem_cons, full_ne_mergeBase, full_ne_diff]
      refine ⟨⟨k + 1, ?_⟩, ?_, ?_, ?_, ⟨b, ?_⟩, ?_⟩
      · rw [htr, hlt]
        simp [List.filter_append, List.filter_cons, hP.1, isDeepen_revList,
          isDeepen_mergeBase, isDeepen_diff, isDeepen_full, isDeepen_deepen,
          loopBlocks_filter_isDeepen base ref b k d0, List.range_succ]
      · rw [htrace, List.count_append, List.count_cons_self,
          List.count_eq_zero.2 hfullA, List.count_eq_zero.2 hfullB]
      · intro l r heq
        have hsplit := split_unique cmdFetchFull _ _ l r hfullA hfullB
          (htrace.symm.trans heq)
        exact ⟨b, diffArgOf b ref lo.noMergeBase, hsplit.2⟩
      · intro _
        rw [htrace]
        simp
      · have hlast : rr.trace.getLast? =
            some (cmdDiff (diffArgOf b ref lo.noMergeBase)) := by
          rw [htr, ← List.append_assoc]
          exact List.getLast?_concat _
        rw [hlast, hw]
        cases hb : lo.noMergeBase <;> rfl
      · constructor
        · intro _
          refine ⟨P ++ cmdRevListCount :: (loopBlocks base ref b d0 k ++ [cmdMergeBase b ref]),
            satIter d0 (k + 1), [cmdMergeBase b ref, cmdDiff (diffArgOf b ref lo.noMergeBase)],
            ?_, ?_⟩
          · rw [htr, hlt]
            simp only [List.cons_append, List.append_assoc, List.nil_append]
          · have hrepl : replay acc w0 (P ++ cmdRevListCount ::
                (loopBlocks base ref b d0 k ++ [cmdMergeBase b ref])) =
                replay acc (replay acc w0 P) (loopBlocks base ref b d0 k) := by
              rw [replay_append, replay_nonfetch acc _ _ isFetchCmd_revList, replay_append,
                replay_nonfetch acc _ _ (isFetchCmd_mergeBase b ref), replay_nil]
            rw [hrepl]
            exact hcnt
        · rintro ⟨l, dp, r, heq, -⟩
          refine (heq ▸ ?_ : cmdFetchFull ∈ rr.trace)
          simp

/-- Witness for C1 at the trivial accessor with a SHA base: the merge base
is visible at once, the trace holds no deepen and no full fetch, and the
run ends in the three-dot diff. -/
theorem c1_merge_base_search_protocol_witness :
    (∃ k, rrA.trace.filter isDeepen =
      (List.range k).map (fun i => cmdDeepen (satIter 2 (i + 1)) sha40 "r")) ∧
    rrA.trace.count cmdFetchFull ≤ 1 ∧
    (∀ l r, rrA.trace = l ++ cmdFetchFull :: r →
      ∃ b arg, r = [cmdMergeBase b "r", cmdDiff arg]) ∧
    (rrA.warning = true → cmdFetchFull ∈ rrA.trace) ∧
    (∃ b, rrA.trace.getLast? =
      some (cmdDiff (if rrA.warning then b ++ ".." ++ "r" else b ++ "..." ++ "r"))) ∧
    (cmdFetchFull ∈ rrA.trace ↔
      ∃ l dp r, rrA.trace = l ++ cmdDeepen dp sha40 "r" :: cmdRevListCount ::
          cmdFetchFull :: r ∧
        commitCountAt trivAcc (trivAcc.fetch (replay trivAcc () l) (cmdDeepen dp sha40 "r")) =
          commitCountAt trivAcc (replay trivAcc () l)) :=
  c1_merge_base_search_protocol trivAcc () sha40 "r" 2 1 rrA [] (by rfl) rfl

end PathsFilter
